import Mathlib

/-
Verification development for the otable over-the-air firmware updater.

Shallow embedding of the repository's two programs:
  * src/core/main.py  — the on-device agent: the BLE control-channel workflow
    (OtaBle.workflow), the tar extraction routine (tar_expand), the
    delete-and-rename firmware swap, and the advertising loop (OtaBle.advertise);
  * src/send/send.py  — the host-side uploader: tar-encode, zlib-compress,
    zero-pad to a 16-byte boundary, SHA-1 digest, AES-ECB encrypt, and the
    20-byte chunked transmission over the control characteristic.

External library primitives that the programs call (AES via cryptolib/pycryptodome,
SHA-1 via hashlib, zlib/deflate, and the tar container serialization done by the
tarfile library) are not repository code; they are modelled as parameters
(structure `Primitives`) and theorems that need them assume only the pointwise
round-trip contracts the libraries provide.  Everything the repository itself
computes — padding, chunking, accumulation, digest comparison, path
normalization, pax-entry skipping, directory creation, file writes, the
rmtree/rename swap, and the advertising loop — is embedded concretely.

The filesystem is modelled as a flat association list from path strings to
nodes.  MicroPython runs the agent with the working directory at the
filesystem root, so the source's "/new_firmware", "new_firmware",
"/firmware" and "firmware" all denote the same two directories; paths are
canonicalized here without the leading slash.  `os.mkdir` on an existing
path and `open(...,"wb")` on a directory raise OSError, which tar_expand
catches and ignores; the model makes those operations no-ops, mirroring the
observable effect.  Paths are kept as literal character strings: the model
does not perform OS-level path resolution (such as collapsing interior "./"
components), which is exactly the distinction several claims are about.
-/

set_option maxHeartbeats 1000000

abbrev Byte := Nat

abbrev Bytes := List Byte

abbrev FPath := List Char

/-- A filesystem node: a regular file with its content bytes, or a directory. -/
inductive Node where
  | file (content : Bytes) : Node
  | dir : Node
deriving DecidableEq

/-- A filesystem: a flat association list from (canonical) paths to nodes.
The first entry with a given key is the visible one. -/
abbrev FS := List (FPath × Node)

/-- Find the node at path `k`, scanning from the front. -/
def FS.lookup : FS → FPath → Option Node
  | [], _ => none
  | (q, n) :: rest, k => if q = k then some n else FS.lookup rest k

/-- Bind path `p` to node `n` (shadowing any earlier binding). -/
def FS.set (fs : FS) (p : FPath) (n : Node) : FS :=
  (p, n) :: fs

/-- os.mkdir: create a directory at `p`.  On an existing path os.mkdir raises
OSError, which every caller in the source catches and ignores, so the model
leaves the filesystem unchanged in that case. -/
def FS.mkdir (fs : FS) (p : FPath) : FS :=
  match FS.lookup fs p with
  | some _ => fs
  | none => FS.set fs p .dir

/-- open(p, "wb") followed by write: create or overwrite the file at `p`.
Opening a directory for writing raises OSError, which tar_expand catches and
ignores, so the model leaves the filesystem unchanged in that case. -/
def FS.writeFile (fs : FS) (p : FPath) (c : Bytes) : FS :=
  match FS.lookup fs p with
  | some .dir => fs
  | _ => FS.set fs p (.file c)

/-- `hasRoot d k` is true when `k = d ++ t` for some tail `t` (the key `k`
lies at or under the path spelled by `d`). -/
def hasRoot : FPath → FPath → Bool
  | [], _ => true
  | _ :: _, [] => false
  | d :: ds, k :: ks => decide (d = k) && hasRoot ds ks

/-- shutil.rmtree: remove the directory at `p` and everything beneath it.
A missing tree is tolerated (the function is total). -/
def FS.rmtree (fs : FS) (p : FPath) : FS :=
  fs.filter (fun e => !(decide (e.1 = p) || hasRoot (p ++ "/".data) e.1))

/-- How os.rename of a directory transforms a single stored key. -/
def renameKey (src dst k : FPath) : FPath :=
  if k = src then dst
  else if hasRoot (src ++ "/".data) k then dst ++ k.drop src.length
  else k

/-- os.rename: move the directory at `src` (with everything beneath it) to `dst`. -/
def FS.rename (fs : FS) (src dst : FPath) : FS :=
  fs.map (fun e => (renameKey src dst e.1, e.2))

/-- Canonical path of the staging directory ("/new_firmware" in the source). -/
def nfwP : FPath := "new_firmware".data

/-- Staging directory path followed by the separator, the prefix of every
key strictly inside the staging tree. -/
def nfwSlash : FPath := "new_firmware/".data

/-- Canonical path of the live firmware directory ("/firmware" in the source). -/
def fwP : FPath := "firmware".data

/-- Live directory path followed by the separator. -/
def fwSlash : FPath := "firmware/".data

/-- Canonical path of the version marker file ("/firmware/version"). -/
def fwVersionP : FPath := "firmware/version".data

/-- Tar entry kind: tarfile.DIRTYPE or a regular file. -/
inductive TType where
  | dirT : TType
  | fileT : TType
deriving DecidableEq

/-- One entry of the tar container, as the device-side tarfile iterator
presents it: stored name, type flag, and (for regular files) content. -/
structure TarEntry where
  name : FPath
  type : TType
  content : Bytes
deriving DecidableEq

/-- The source's pax-marker test `name[-10:] == "@PaxHeader"`: compare the
last ten characters of the stored name against the marker. -/
def isPax (name : FPath) : Bool :=
  decide ((name.reverse.take 10).reverse = "@PaxHeader".data)

/-- The source's normalization loop `while name[:2] == './': name = name[2:]`:
strip leading "./" pairs, repeatedly.  Interior "./" components are untouched. -/
def stripDS : FPath → FPath
  | '.' :: '/' :: rest => stripDS rest
  | p => p

/-- The body of tar_expand's per-entry loop: skip pax markers, normalize the
name, then mkdir for directory entries or extract the file content, with any
OSError logged and ignored (embedded in FS.mkdir / FS.writeFile). -/
def expandEntry (rootSlash : FPath) (fs : FS) (e : TarEntry) : FS :=
  if isPax e.name then fs
  else
    match e.type with
    | .dirT => FS.mkdir fs (rootSlash ++ stripDS e.name)
    | .fileT => FS.writeFile fs (rootSlash ++ stripDS e.name) e.content

/-- tar_expand from src/core/main.py.  `parse` stands for the library pair
deflate.DeflateIO + tarfile.TarFile reading the byte stream: it yields the
entries decoded before any failure, and a flag telling whether the stream was
consumed without a decompression or container-parse error.  Note the staging
root is created before the stream is opened, exactly as in the source. -/
def tar_expand (parse : Bytes → List TarEntry × Bool) (data : Bytes)
    (root : FPath) (fs : FS) : FS × Bool :=
  let fs1 := FS.mkdir fs root
  let r := parse data
  (r.1.foldl (expandEntry (root ++ "/".data)) fs1, r.2)

/-- The external library primitives both programs call.  `aesEnc`/`aesDec`
are AES-ECB under a 16-byte key, `sha1` the 20-byte digest, `compressZ`
zlib.compress on the host, `serializeTar` the host tarfile writer, and
`parseArchive` the device-side deflate + tarfile reader (entries decoded
before any failure, plus a clean-completion flag). -/
structure Primitives where
  aesEnc : Bytes → Bytes → Bytes
  aesDec : Bytes → Bytes → Bytes
  sha1 : Bytes → Bytes
  compressZ : Bytes → Bytes
  serializeTar : List TarEntry → Bytes
  parseArchive : Bytes → List TarEntry × Bool

/-- How one workflow run ends (the distinct exit paths of OtaBle.workflow). -/
inductive Outcome where
  | incomplete : Outcome
  | badHashLen : Outcome
  | hashMismatch : Outcome
  | expandFailed : Outcome
  | swapped : Outcome
deriving DecidableEq

/-- Result of one workflow run: the filesystem afterwards, which exit path was
taken, and every payload the device sent back to the peer over the control
channel (the source never sends any, so this list is built empty). -/
structure WfResult where
  fs : FS
  outcome : Outcome
  sent : List Bytes
deriving DecidableEq

/-- The accumulation loop of OtaBle.workflow: append chunks verbatim until a
zero-length chunk arrives; if the write sequence ends without a terminator the
loop is still awaiting and the session never completes (`none`). -/
def accumulate : List Bytes → Option Bytes
  | [] => none
  | c :: rest => if c = [] then some [] else (accumulate rest).map (fun acc => c ++ acc)

/-- OtaBle.workflow from src/core/main.py, as a function of the sequence of
values written to the control characteristic during the connection.
An empty sequence means the first await never fires (the task idles until
cancelled): outcome `incomplete`.  A first chunk whose length is not 20
aborts (`badHashLen`).  Accumulated chunks are decrypted with AES-ECB, the
SHA-1 digest is compared to the first chunk (`hashMismatch` aborts with no
filesystem change), then tar_expand stages the tree; a decompression or
container error propagates out of the task (`expandFailed`, no swap).  On
success the old live tree is deleted (absence tolerated), the staging tree is
renamed into its place, and the device soft-resets (`swapped`). -/
def workflow (P : Primitives) (key : Bytes) (chunks : List Bytes) (fs : FS) : WfResult :=
  match chunks with
  | [] => ⟨fs, .incomplete, []⟩
  | first :: rest =>
    if first.length ≠ 20 then ⟨fs, .badHashLen, []⟩
    else
      match accumulate rest with
      | none => ⟨fs, .incomplete, []⟩
      | some received =>
        let decrypted := P.aesDec key received
        if P.sha1 decrypted ≠ first then ⟨fs, .hashMismatch, []⟩
        else
          match tar_expand P.parseArchive decrypted nfwP fs with
          | (fs1, false) => ⟨fs1, .expandFailed, []⟩
          | (fs1, true) =>
            ⟨FS.rename (FS.rmtree fs1 fwP) nfwP fwP, .swapped, []⟩

/-- The version-characteristic read in OtaBle.advertise: the first 20
characters of /firmware/version, if that file exists (a missing file or a
directory raises OSError and the characteristic is left unwritten). -/
def versionRead (fs : FS) : Option Bytes :=
  match FS.lookup fs fwVersionP with
  | some (.file c) => some (c.take 20)
  | _ => none

/-- The advertising loop of OtaBle.advertise: one workflow run per accepted
connection (`sessions` lists, per connection, the chunks written before the
disconnect).  A successful workflow calls machine.soft_reset, ending this
process run; every other outcome returns to advertising. -/
def advLoop (P : Primitives) (key : Bytes) : List (List Bytes) → FS → FS
  | [], fs => fs
  | s :: rest, fs =>
    match workflow P key s fs with
    | ⟨fs1, .swapped, _⟩ => fs1
    | ⟨fs1, _, _⟩ => advLoop P key rest fs1

/-- Result of one run of OtaBle.advertise: the final filesystem and the
sequence of values written to the version characteristic during the run. -/
structure AdvResult where
  fs : FS
  versionWrites : List Bytes
deriving DecidableEq

/-- OtaBle.advertise from src/core/main.py: the version characteristic is
written once, from the filesystem as it is when the coroutine starts and
before the advertising loop is entered; then the loop runs. -/
def advertise (P : Primitives) (key : Bytes) (fs : FS)
    (sessions : List (List Bytes)) : AdvResult :=
  ⟨advLoop P key sessions fs, (versionRead fs).toList⟩

/-- The uploader's zero padding (src/send/send.py line 43):
`compressed + b'\x00' * (16 - len(compressed) % 16)`.  Note that a length
that is already a multiple of 16 still gains 16 zero bytes. -/
def padTo16 (b : Bytes) : Bytes :=
  b ++ List.replicate (16 - b.length % 16) 0

/-- The uploader's transmission slicing: `ciphertext[i:i+20]` for
`i in range(0, len(ciphertext), 20)`. -/
def chunk20 (b : Bytes) : List Bytes :=
  if b = [] then [] else b.take 20 :: chunk20 (b.drop 20)
termination_by b.length
decreasing_by
  simp only [List.length_drop]
  have hb : ¬b = [] := by assumption
  have : 0 < b.length := List.length_pos.mpr hb
  omega

/-- The byte string the uploader encrypts and digests: the tar stream,
zlib-compressed, zero-padded to a 16-byte boundary (the reassignment of
`compressed` on send.py line 43). -/
def sendPayload (P : Primitives) (entries : List TarEntry) : Bytes :=
  padTo16 (P.compressZ (P.serializeTar entries))

/-- The full sequence of control-characteristic writes the uploader performs
(send.py lines 45-67): the 20-byte SHA-1 digest of the compressed-and-padded
payload, the ciphertext in 20-byte slices, then the zero-length terminator. -/
def sendChunks (P : Primitives) (key : Bytes) (entries : List TarEntry) : List Bytes :=
  P.sha1 (sendPayload P entries) :: (chunk20 (P.aesEnc key (sendPayload P entries)) ++ [[]])

/-- Modelled from the spec: one tree item as the host packer stores it — the
item's relative path prefixed with "./", a directory entry for a directory
(`none`), a regular-file entry carrying the content for a file (`some`). -/
def encItem (it : FPath × Option Bytes) : TarEntry :=
  match it.2 with
  | some c => ⟨"./".data ++ it.1, .fileT, c⟩
  | none => ⟨"./".data ++ it.1, .dirT, []⟩

/-- Modelled from the spec: the archive packing step on the host
(`tarfile.TarFile.add('.')`, specified only as a format contract) produces
one directory entry named "." for the root, then one entry per tree item.
A directory tree is represented flat: a list of (relative path, `none` for a
directory / `some content` for a file). -/
def encodeEntries (T : List (FPath × Option Bytes)) : List TarEntry :=
  ⟨".".data, .dirT, []⟩ :: T.map encItem

/-- Well-formedness of one tree item's path: already normalized (no leading
"./"), nonempty, not the root marker ".", and its decorated stored name is
not a pax pseudo-entry. -/
def wfItem (p : FPath) : Prop :=
  stripDS p = p ∧ p ≠ [] ∧ p ≠ ".".data ∧ isPax ("./".data ++ p) = false

/-- Well-formedness of a flat directory tree: pairwise distinct paths, each
well formed. -/
def wfTree (T : List (FPath × Option Bytes)) : Prop :=
  (T.map Prod.fst).Nodup ∧ ∀ it ∈ T, wfItem it.1

instance (p : FPath) : Decidable (wfItem p) := by
  unfold wfItem; infer_instance

instance (T : List (FPath × Option Bytes)) : Decidable (wfTree T) := by
  unfold wfTree; infer_instance

/-- Identity "cipher": a legitimate instantiation of the AES round-trip
contract, used to discharge hypotheses in witnesses. -/
def aesId : Bytes → Bytes → Bytes := fun _ b => b

/-- Constant 20-byte digest: a legitimate instantiation of the digest-length
contract, used in witnesses. -/
def sha1Const : Bytes → Bytes := fun _ => List.replicate 20 0

/-- A primitive bundle with trivial transforms and a chosen archive reader. -/
def basePrims (parse : Bytes → List TarEntry × Bool) : Primitives :=
  ⟨aesId, aesId, sha1Const, id, fun _ => [], parse⟩

/-- The spec's concrete scenario: a tree holding one file `version` with
content "1.0.0". -/
def T0 : List (FPath × Option Bytes) :=
  [("version".data, some [49, 46, 48, 46, 48])]

/-- Primitives whose archive reader yields the encoding of T0, cleanly. -/
def primsOk : Primitives := basePrims (fun _ => (encodeEntries T0, true))

/-- Primitives whose archive reader fails immediately (corrupt zlib stream). -/
def primsFail : Primitives := basePrims (fun _ => ([], false))

/-- Primitives whose archive reader yields one file entry `a.txt`. -/
def primsA : Primitives := basePrims (fun _ => ([⟨"a.txt".data, .fileT, [7]⟩], true))

/-- A sample filesystem with a live version marker file. -/
def sampleFs : FS := [(fwVersionP, .file [49, 46, 48])]

/-- A sample filesystem with a stale file left under the staging root by an
earlier aborted workflow. -/
def staleFs : FS := [(nfwSlash ++ "old.txt".data, .file [5])]

theorem cons_ne_cons_head {a b : Char} (l m : List Char) (h : a ≠ b) :
    (a :: l) ≠ (b :: m) := by
  intro he
  injection he with h1 _
  exact h h1

theorem ne_of_length_ne {a b : FPath} (h : a.length ≠ b.length) : a ≠ b := by
  intro he
  exact h (he ▸ rfl)

theorem nfwSlash_eq : nfwP ++ "/".data = nfwSlash := by decide

theorem nfwSlash_eq' : nfwP ++ ['/'] = nfwSlash := by decide

theorem fwSlash_eq : fwP ++ "/".data = fwSlash := by decide

theorem nfwSlash_cons : nfwSlash = 'n' :: "ew_firmware/".data := by decide

theorem fwSlash_cons : fwSlash = 'f' :: "irmware/".data := by decide

theorem nfwP_cons : nfwP = 'n' :: "ew_firmware".data := by decide

theorem fwP_cons : fwP = 'f' :: "irmware".data := by decide

theorem fw_under_ne_nfw_under (q t : FPath) : fwSlash ++ q ≠ nfwSlash ++ t := by
  rw [fwSlash_cons, nfwSlash_cons]
  simp only [List.cons_append]
  exact cons_ne_cons_head _ _ (by decide)

theorem fw_under_ne_nfwP (q : FPath) : fwSlash ++ q ≠ nfwP := by
  rw [fwSlash_cons, nfwP_cons]
  simp only [List.cons_append]
  exact cons_ne_cons_head _ _ (by decide)

theorem nfw_under_ne_fwP (q : FPath) : nfwSlash ++ q ≠ fwP := by
  rw [nfwSlash_cons, fwP_cons]
  simp only [List.cons_append]
  exact cons_ne_cons_head _ _ (by decide)

theorem fwP_ne_fw_under (q : FPath) : fwP ≠ fwSlash ++ q := by
  apply ne_of_length_ne
  rw [List.length_append]
  have h1 : fwP.length = 8 := by decide
  have h2 : fwSlash.length = 9 := by decide
  omega

theorem nfwP_ne_nfw_under (q : FPath) : nfwP ≠ nfwSlash ++ q := by
  apply ne_of_length_ne
  rw [List.length_append]
  have h1 : nfwP.length = 12 := by decide
  have h2 : nfwSlash.length = 13 := by decide
  omega

theorem fwP_ne_nfwP : fwP ≠ nfwP := by decide

theorem fwP_ne_nfw_under (q : FPath) : fwP ≠ nfwSlash ++ q :=
  (nfw_under_ne_fwP q).symm

theorem nfw_under_ne_nfwP (q : FPath) : nfwSlash ++ q ≠ nfwP :=
  (nfwP_ne_nfw_under q).symm

theorem append_cancel_iff (a b c : FPath) : a ++ b = a ++ c ↔ b = c :=
  ⟨List.append_cancel_left, fun h => h ▸ rfl⟩

theorem hasRoot_append (d t : FPath) : hasRoot d (d ++ t) = true := by
  induction d with
  | nil => rfl
  | cons c ds ih => simp [hasRoot, ih]

theorem hasRoot_exists {d k : FPath} (h : hasRoot d k = true) : ∃ t, k = d ++ t := by
  induction d generalizing k with
  | nil => exact ⟨k, rfl⟩
  | cons c ds ih =>
    cases k with
    | nil => simp [hasRoot] at h
    | cons x ks =>
      simp only [hasRoot, Bool.and_eq_true, decide_eq_true_eq] at h
      obtain ⟨rfl, h2⟩ := h
      obtain ⟨t, rfl⟩ := ih h2
      exact ⟨t, rfl⟩

theorem hasRoot_eq_false {d k : FPath} (h : ∀ t, k ≠ d ++ t) : hasRoot d k = false := by
  cases hr : hasRoot d k
  · rfl
  · obtain ⟨t, ht⟩ := hasRoot_exists hr
    exact absurd ht (h t)

theorem FS.lookup_mkdir_ne (fs : FS) {p k : FPath} (h : p ≠ k) :
    FS.lookup (FS.mkdir fs p) k = FS.lookup fs k := by
  unfold FS.mkdir
  cases hl : FS.lookup fs p with
  | some n => rfl
  | none => simp [FS.set, FS.lookup, h]

theorem FS.mkdir_found (fs : FS) {p : FPath} {n : Node} (h : FS.lookup fs p = some n) :
    FS.mkdir fs p = fs := by
  unfold FS.mkdir
  rw [h]

theorem FS.lookup_mkdir_none (fs : FS) {p : FPath} (h : FS.lookup fs p = none) :
    FS.lookup (FS.mkdir fs p) p = some .dir := by
  unfold FS.mkdir
  rw [h]
  simp [FS.set, FS.lookup]

theorem FS.lookup_writeFile_ne (fs : FS) {p k : FPath} (c : Bytes) (h : p ≠ k) :
    FS.lookup (FS.writeFile fs p c) k = FS.lookup fs k := by
  unfold FS.writeFile
  cases hl : FS.lookup fs p with
  | none => simp [FS.set, FS.lookup, h]
  | some n =>
    cases n with
    | dir => rfl
    | file c' => simp [FS.set, FS.lookup, h]

theorem FS.lookup_writeFile_none (fs : FS) {p : FPath} (c : Bytes)
    (h : FS.lookup fs p = none) :
    FS.lookup (FS.writeFile fs p c) p = some (.file c) := by
  unfold FS.writeFile
  rw [h]
  simp [FS.set, FS.lookup]

theorem lookup_filter_key (P : FPath → Bool) (fs : FS) (k : FPath) :
    FS.lookup (fs.filter (fun e => P e.1)) k = if P k then FS.lookup fs k else none := by
  induction fs with
  | nil => cases h : P k <;> simp [FS.lookup, h]
  | cons e rest ih =>
    obtain ⟨q, n⟩ := e
    rw [List.filter_cons]
    by_cases hq : q = k
    · subst hq
      cases h : P q
      · simp only [h, Bool.false_eq_true, if_false]
        rw [ih]
        simp [h]
      · simp [FS.lookup, h]
    · cases h : P q
      · simp only [h, Bool.false_eq_true, if_false]
        rw [ih]
        cases hk : P k <;> simp [FS.lookup, hq, hk]
      · simp only [h, if_true]
        rw [FS.lookup, if_neg hq, ih]
        cases hk : P k <;> simp [FS.lookup, hq, hk]

theorem FS.lookup_rmtree (fs : FS) (p k : FPath) :
    FS.lookup (FS.rmtree fs p) k =
      if !(decide (k = p) || hasRoot (p ++ "/".data) k) then FS.lookup fs k else none := by
  exact lookup_filter_key (fun x => !(decide (x = p) || hasRoot (p ++ "/".data) x)) fs k

theorem FS.lookup_rmtree_fw_under (fs : FS) (q : FPath) :
    FS.lookup (FS.rmtree fs fwP) (fwSlash ++ q) = none := by
  rw [FS.lookup_rmtree, fwSlash_eq, hasRoot_append]
  simp

theorem FS.lookup_rmtree_fw_root (fs : FS) :
    FS.lookup (FS.rmtree fs fwP) fwP = none := by
  rw [FS.lookup_rmtree]
  simp

theorem FS.lookup_rmtree_nfw_under (fs : FS) (q : FPath) :
    FS.lookup (FS.rmtree fs fwP) (nfwSlash ++ q) = FS.lookup fs (nfwSlash ++ q) := by
  rw [FS.lookup_rmtree, fwSlash_eq]
  rw [hasRoot_eq_false (fun t => (fw_under_ne_nfw_under t q).symm)]
  simp [nfw_under_ne_fwP q]

theorem FS.lookup_rmtree_nfw_root (fs : FS) :
    FS.lookup (FS.rmtree fs fwP) nfwP = FS.lookup fs nfwP := by
  rw [FS.lookup_rmtree, fwSlash_eq]
  rw [hasRoot_eq_false (fun t => (fw_under_ne_nfwP t).symm)]
  have hne : nfwP ≠ fwP := Ne.symm fwP_ne_nfwP
  simp [hne]

theorem renameKey_nfw_root : renameKey nfwP fwP nfwP = fwP := by
  unfold renameKey
  rw [if_pos rfl]

theorem renameKey_nfw_under (t : FPath) :
    renameKey nfwP fwP (nfwSlash ++ t) = fwSlash ++ t := by
  unfold renameKey
  rw [if_neg (nfw_under_ne_nfwP t), nfwSlash_eq, hasRoot_append, if_pos rfl]
  have h1 : nfwSlash ++ t = nfwP ++ ('/' :: t) := by
    rw [show nfwSlash = nfwP ++ ['/'] from by decide, List.append_assoc, List.singleton_append]
  rw [h1, List.drop_left]
  rw [show fwSlash = fwP ++ ['/'] from by decide, List.append_assoc, List.singleton_append]

theorem renameKey_other {k : FPath} (h1 : k ≠ nfwP) (h2 : ∀ t, k ≠ nfwSlash ++ t) :
    renameKey nfwP fwP k = k := by
  unfold renameKey
  rw [if_neg h1, nfwSlash_eq, hasRoot_eq_false h2]
  simp

theorem renameKey_cases (k : FPath) :
    (k = nfwP ∧ renameKey nfwP fwP k = fwP) ∨
    (∃ t, k = nfwSlash ++ t ∧ renameKey nfwP fwP k = fwSlash ++ t) ∨
    (k ≠ nfwP ∧ (∀ t, k ≠ nfwSlash ++ t) ∧ renameKey nfwP fwP k = k) := by
  by_cases h1 : k = nfwP
  · exact Or.inl ⟨h1, by rw [h1, renameKey_nfw_root]⟩
  · cases hr : hasRoot nfwSlash k
    · have hall : ∀ t, k ≠ nfwSlash ++ t := by
        intro t ht
        rw [ht, hasRoot_append] at hr
        simp at hr
      exact Or.inr (Or.inr ⟨h1, hall, renameKey_other h1 hall⟩)
    · obtain ⟨t, rfl⟩ := hasRoot_exists hr
      exact Or.inr (Or.inl ⟨t, rfl, renameKey_nfw_under t⟩)

theorem FS.lookup_rename_under (fs : FS) (q : FPath)
    (hnone : FS.lookup fs (fwSlash ++ q) = none) :
    FS.lookup (FS.rename fs nfwP fwP) (fwSlash ++ q) = FS.lookup fs (nfwSlash ++ q) := by
  induction fs with
  | nil => rfl
  | cons e rest ih =>
    obtain ⟨k, n⟩ := e
    rw [FS.lookup] at hnone
    by_cases hk : k = fwSlash ++ q
    · rw [if_pos hk] at hnone
      exact absurd hnone (by simp)
    · rw [if_neg hk] at hnone
      rw [FS.rename, List.map_cons, FS.lookup, FS.lookup]
      rcases renameKey_cases k with ⟨hk1, hrk⟩ | ⟨t, rfl, hrk⟩ | ⟨hk1, hk2, hrk⟩
      · rw [hrk, if_neg (fwP_ne_fw_under q), if_neg (hk1 ▸ nfwP_ne_nfw_under q)]
        exact ih hnone
      · rw [hrk]
        by_cases ht : t = q
        · subst ht
          rw [if_pos rfl, if_pos rfl]
        · rw [if_neg (fun he => ht (List.append_cancel_left he)),
            if_neg (fun he => ht (List.append_cancel_left he))]
          exact ih hnone
      · rw [hrk, if_neg hk, if_neg (hk2 q)]
        exact ih hnone

theorem FS.lookup_rename_root (fs : FS)
    (hnone : FS.lookup fs fwP = none) :
    FS.lookup (FS.rename fs nfwP fwP) fwP = FS.lookup fs nfwP := by
  induction fs with
  | nil => rfl
  | cons e rest ih =>
    obtain ⟨k, n⟩ := e
    rw [FS.lookup] at hnone
    by_cases hk : k = fwP
    · rw [if_pos hk] at hnone
      exact absurd hnone (by simp)
    · rw [if_neg hk] at hnone
      rw [FS.rename, List.map_cons, FS.lookup, FS.lookup]
      rcases renameKey_cases k with ⟨hk1, hrk⟩ | ⟨t, rfl, hrk⟩ | ⟨hk1, hk2, hrk⟩
      · rw [hrk, if_pos rfl, if_pos hk1]
      · rw [hrk, if_neg (fwP_ne_fw_under t ∘ Eq.symm),
          if_neg (nfwP_ne_nfw_under t ∘ Eq.symm)]
        exact ih hnone
      · rw [hrk, if_neg hk, if_neg hk1]
        exact ih hnone

theorem FS.lookup_rename_gone_root (fs : FS) :
    FS.lookup (FS.rename fs nfwP fwP) nfwP = none := by
  induction fs with
  | nil => rfl
  | cons e rest ih =>
    obtain ⟨k, n⟩ := e
    rw [FS.rename, List.map_cons, FS.lookup]
    rcases renameKey_cases k with ⟨hk1, hrk⟩ | ⟨t, rfl, hrk⟩ | ⟨hk1, hk2, hrk⟩
    · rw [hrk, if_neg fwP_ne_nfwP]
      exact ih
    · rw [hrk, if_neg (fw_under_ne_nfwP t)]
      exact ih
    · rw [hrk, if_neg hk1]
      exact ih

theorem FS.lookup_rename_gone_under (fs : FS) (q : FPath) :
    FS.lookup (FS.rename fs nfwP fwP) (nfwSlash ++ q) = none := by
  induction fs with
  | nil => rfl
  | cons e rest ih =>
    obtain ⟨k, n⟩ := e
    rw [FS.rename, List.map_cons, FS.lookup]
    rcases renameKey_cases k with ⟨hk1, hrk⟩ | ⟨t, rfl, hrk⟩ | ⟨hk1, hk2, hrk⟩
    · rw [hrk, if_neg (fwP_ne_nfw_under q)]
      exact ih
    · rw [hrk, if_neg (fw_under_ne_nfw_under t q)]
      exact ih
    · rw [hrk, if_neg (hk2 q)]
      exact ih

theorem accumulate_none {l : List Bytes} (h : ∀ c ∈ l, c ≠ ([] : Bytes)) :
    accumulate l = none := by
  induction l with
  | nil => rfl
  | cons c rest ih =>
    simp only [accumulate]
    rw [if_neg (h c (List.mem_cons_self c rest))]
    rw [ih (fun x hx => h x (List.mem_cons_of_mem c hx))]
    rfl

theorem accumulate_chunk20 (b : Bytes) : accumulate (chunk20 b ++ [[]]) = some b := by
  induction b using chunk20.induct with
  | case1 =>
    rw [chunk20]
    simp [accumulate]
  | case2 b hb ih =>
    rw [chunk20, if_neg hb]
    have htake : b.take 20 ≠ ([] : Bytes) := by
      simp [List.take_eq_nil_iff, hb]
    rw [List.cons_append]
    simp only [accumulate]
    rw [if_neg htake, ih]
    simp [List.take_append_drop]

theorem lookup_expandEntry_ne (rootSlash : FPath) (fs : FS) (e : TarEntry) {k : FPath}
    (h : rootSlash ++ stripDS e.name ≠ k) :
    FS.lookup (expandEntry rootSlash fs e) k = FS.lookup fs k := by
  unfold expandEntry
  cases hp : isPax e.name
  · rw [if_neg (by simp [hp])]
    cases ht : e.type
    · exact FS.lookup_mkdir_ne fs h
    · exact FS.lookup_writeFile_ne fs e.content h
  · rw [if_pos (by simp [hp])]

theorem lookup_fold_ne (rootSlash : FPath) (es : List TarEntry) (fs : FS) {k : FPath}
    (h : ∀ e ∈ es, rootSlash ++ stripDS e.name ≠ k) :
    FS.lookup (es.foldl (expandEntry rootSlash) fs) k = FS.lookup fs k := by
  induction es generalizing fs with
  | nil => rfl
  | cons e rest ih =>
    rw [List.foldl_cons]
    rw [ih (expandEntry rootSlash fs e) (fun x hx => h x (List.mem_cons_of_mem e hx))]
    exact lookup_expandEntry_ne rootSlash fs e (h e (List.mem_cons_self e rest))

theorem lookup_fold_keepFile (rootSlash : FPath) (es : List TarEntry) (fs : FS)
    {k : FPath} {c : Bytes}
    (hc : FS.lookup fs k = some (.file c))
    (h : ∀ e ∈ es, isPax e.name = false → e.type = .fileT →
      rootSlash ++ stripDS e.name ≠ k) :
    FS.lookup (es.foldl (expandEntry rootSlash) fs) k = some (.file c) := by
  induction es generalizing fs with
  | nil => exact hc
  | cons e rest ih =>
    rw [List.foldl_cons]
    apply ih _ ?_ (fun x hx hp ht => h x (List.mem_cons_of_mem e hx) hp ht)
    unfold expandEntry
    cases hp : isPax e.name
    · rw [if_neg (by simp [hp])]
      cases ht : e.type
      · by_cases hkey : rootSlash ++ stripDS e.name = k
        · rw [hkey, FS.mkdir_found fs hc]
          exact hc
        · rw [FS.lookup_mkdir_ne fs hkey]
          exact hc
      · rw [FS.lookup_writeFile_ne fs e.content (h e (List.mem_cons_self e rest) hp ht)]
        exact hc
    · rw [if_pos (by simp [hp])]
      exact hc

theorem lookup_fold_writeFile (rootSlash : FPath) (pre post : List TarEntry)
    (nm : FPath) (c : Bytes) (fs : FS) {k : FPath}
    (hk : rootSlash ++ stripDS nm = k)
    (hpax : isPax nm = false)
    (hpre : ∀ e ∈ pre, rootSlash ++ stripDS e.name ≠ k)
    (hpost : ∀ e ∈ post, rootSlash ++ stripDS e.name ≠ k)
    (hinit : FS.lookup fs k = none) :
    FS.lookup ((pre ++ ⟨nm, .fileT, c⟩ :: post).foldl (expandEntry rootSlash) fs) k
      = some (.file c) := by
  rw [List.foldl_append, List.foldl_cons]
  have h1 : FS.lookup (pre.foldl (expandEntry rootSlash) fs) k = none := by
    rw [lookup_fold_ne rootSlash pre fs hpre]
    exact hinit
  rw [lookup_fold_ne rootSlash post _ hpost]
  show FS.lookup (expandEntry rootSlash (pre.foldl (expandEntry rootSlash) fs)
    ⟨nm, .fileT, c⟩) k = some (.file c)
  unfold expandEntry
  rw [if_neg (by simp [hpax])]
  show FS.lookup (FS.writeFile _ (rootSlash ++ stripDS nm) c) k = some (.file c)
  rw [hk]
  exact FS.lookup_writeFile_none _ c h1

theorem lookup_fold_mkdirEntry (rootSlash : FPath) (pre post : List TarEntry)
    (nm : FPath) (fs : FS) {k : FPath}
    (hk : rootSlash ++ stripDS nm = k)
    (hpax : isPax nm = false)
    (hpre : ∀ e ∈ pre, rootSlash ++ stripDS e.name ≠ k)
    (hpost : ∀ e ∈ post, rootSlash ++ stripDS e.name ≠ k)
    (hinit : FS.lookup fs k = none) :
    FS.lookup ((pre ++ ⟨nm, .dirT, []⟩ :: post).foldl (expandEntry rootSlash) fs) k
      = some .dir := by
  rw [List.foldl_append, List.foldl_cons]
  have h1 : FS.lookup (pre.foldl (expandEntry rootSlash) fs) k = none := by
    rw [lookup_fold_ne rootSlash pre fs hpre]
    exact hinit
  rw [lookup_fold_ne rootSlash post _ hpost]
  show FS.lookup (expandEntry rootSlash (pre.foldl (expandEntry rootSlash) fs)
    ⟨nm, .dirT, []⟩) k = some .dir
  unfold expandEntry
  rw [if_neg (by simp [hpax])]
  show FS.lookup (FS.mkdir _ (rootSlash ++ stripDS nm)) k = some .dir
  rw [hk]
  exact FS.lookup_mkdir_none _ h1

theorem workflow_badHashLen (P : Primitives) (key first : Bytes) (rest : List Bytes)
    (fs : FS) (h : first.length ≠ 20) :
    workflow P key (first :: rest) fs = ⟨fs, .badHashLen, []⟩ := by
  simp only [workflow]
  rw [if_pos h]

theorem workflow_noTerminator (P : Primitives) (key first : Bytes) (rest : List Bytes)
    (fs : FS) (h20 : first.length = 20) (h : accumulate rest = none) :
    workflow P key (first :: rest) fs = ⟨fs, .incomplete, []⟩ := by
  simp only [workflow]
  rw [if_neg (by omega), h]

theorem workflow_hashMismatch (P : Primitives) (key first received : Bytes)
    (rest : List Bytes) (fs : FS)
    (h20 : first.length = 20)
    (hacc : accumulate rest = some received)
    (hne : P.sha1 (P.aesDec key received) ≠ first) :
    workflow P key (first :: rest) fs = ⟨fs, .hashMismatch, []⟩ := by
  simp only [workflow]
  rw [if_neg (by omega), hacc]
  simp only []
  rw [if_pos hne]

theorem workflow_expandFailed (P : Primitives) (key first received : Bytes)
    (rest : List Bytes) (es : List TarEntry) (fs : FS)
    (h20 : first.length = 20)
    (hacc : accumulate rest = some received)
    (hok : P.sha1 (P.aesDec key received) = first)
    (hparse : P.parseArchive (P.aesDec key received) = (es, false)) :
    workflow P key (first :: rest) fs =
      ⟨es.foldl (expandEntry nfwSlash) (FS.mkdir fs nfwP), .expandFailed, []⟩ := by
  have hte : tar_expand P.parseArchive (P.aesDec key received) nfwP fs =
      (es.foldl (expandEntry nfwSlash) (FS.mkdir fs nfwP), false) := by
    simp only [tar_expand, hparse, nfwSlash_eq, nfwSlash_eq']
  simp only [workflow]
  rw [if_neg (by omega), hacc]
  simp only []
  rw [if_neg (by rw [hok]; exact fun hc => hc rfl), hte]

theorem workflow_success (P : Primitives) (key first received : Bytes)
    (rest : List Bytes) (es : List TarEntry) (fs : FS)
    (h20 : first.length = 20)
    (hacc : accumulate rest = some received)
    (hok : P.sha1 (P.aesDec key received) = first)
    (hparse : P.parseArchive (P.aesDec key received) = (es, true)) :
    workflow P key (first :: rest) fs =
      ⟨FS.rename (FS.rmtree (es.foldl (expandEntry nfwSlash) (FS.mkdir fs nfwP)) fwP)
        nfwP fwP, .swapped, []⟩ := by
  have hte : tar_expand P.parseArchive (P.aesDec key received) nfwP fs =
      (es.foldl (expandEntry nfwSlash) (FS.mkdir fs nfwP), true) := by
    simp only [tar_expand, hparse, nfwSlash_eq, nfwSlash_eq']
  simp only [workflow]
  rw [if_neg (by omega), hacc]
  simp only []
  rw [if_neg (by rw [hok]; exact fun hc => hc rfl), hte]

/-- C2: whenever the SHA-1 digest of the decrypted bytes differs from the
20-byte digest transmitted in the first chunk, the workflow aborts and the
whole filesystem — in particular both the staging directory and the live
firmware directory — is exactly as it was before the workflow started, and
nothing is sent to the peer (no filesystem operation is performed). -/
theorem c2_digest_mismatch_no_mutation (P : Primitives) (key first received : Bytes)
    (rest : List Bytes) (fs : FS)
    (h20 : first.length = 20)
    (hacc : accumulate rest = some received)
    (hne : P.sha1 (P.aesDec key received) ≠ first) :
    workflow P key (first :: rest) fs = ⟨fs, .hashMismatch, []⟩ :=
  workflow_hashMismatch P key first received rest fs h20 hacc hne

/-- Witness for C2: a concrete session with a 20-byte first chunk of ones, an
immediate terminator, a mismatching digest, and an untouched filesystem. -/
theorem c2_witness :
    workflow primsOk [] [List.replicate 20 1, []] sampleFs =
      ⟨sampleFs, .hashMismatch, []⟩ :=
  c2_digest_mismatch_no_mutation primsOk [] (List.replicate 20 1) [] [[]] sampleFs
    (by decide) rfl (by decide)

/-- C5: a first chunk whose length is not exactly 20 bytes aborts the
workflow for that connection with the filesystem — in particular the staging
directory — untouched and nothing sent to the peer, and the advertising loop
simply proceeds to serve the remaining connections (back to idle). -/
theorem c5_bad_first_chunk (P : Primitives) (key first : Bytes) (rest : List Bytes)
    (fs : FS) (sessions : List (List Bytes))
    (h : first.length ≠ 20) :
    workflow P key (first :: rest) fs = ⟨fs, .badHashLen, []⟩ ∧
    advLoop P key ((first :: rest) :: sessions) fs = advLoop P key sessions fs := by
  have hw := workflow_badHashLen P key first rest fs h
  refine ⟨hw, ?_⟩
  simp only [advLoop, hw]

/-- Witness for C5: a 3-byte first chunk aborts the session, leaves the
filesystem alone, and the loop continues with the next connection. -/
theorem c5_witness :
    workflow primsOk [] [[1, 2, 3]] sampleFs = ⟨sampleFs, .badHashLen, []⟩ ∧
    advLoop primsOk [] [[[1, 2, 3]]] sampleFs = advLoop primsOk [] [] sampleFs :=
  c5_bad_first_chunk primsOk [] [1, 2, 3] [] sampleFs [] (by decide)

/-- C7: if the data chunks never contain a zero-length terminator then after
any number of processed writes (any prefix of the session) the filesystem —
in particular the live firmware tree — is unmodified and the swap is never
reached. -/
theorem c7_no_terminator_no_swap (P : Primitives) (key : Bytes)
    (chunks : List Bytes) (fs : FS) (n : Nat)
    (h : ∀ c ∈ chunks.drop 1, c ≠ ([] : Bytes)) :
    (workflow P key (chunks.take n) fs).fs = fs ∧
    (workflow P key (chunks.take n) fs).outcome ≠ .swapped := by
  cases chunks with
  | nil =>
    simp [workflow]
  | cons first rest =>
    cases n with
    | zero => simp [workflow]
    | succ m =>
      rw [List.take_succ_cons]
      have hrest : ∀ c ∈ rest, c ≠ ([] : Bytes) := by
        intro c hc
        exact h c hc
      by_cases h20 : first.length = 20
      · have hacc : accumulate (rest.take m) = none :=
          accumulate_none (fun c hc => hrest c (List.mem_of_mem_take hc))
        rw [workflow_noTerminator P key first (rest.take m) fs h20 hacc]
        exact ⟨rfl, by simp⟩
      · rw [workflow_badHashLen P key first (rest.take m) fs h20]
        exact ⟨rfl, by simp⟩

/-- Witness for C7: a session whose data chunk [1] is never followed by a
terminator leaves the filesystem untouched after both writes. -/
theorem c7_witness :
    (workflow primsOk [] ([List.replicate 20 0, [1]].take 2) sampleFs).fs = sampleFs ∧
    (workflow primsOk [] ([List.replicate 20 0, [1]].take 2) sampleFs).outcome ≠
      .swapped :=
  c7_no_terminator_no_swap primsOk [] [List.replicate 20 0, [1]] sampleFs 2 (by decide)

/-- C8 counterexample: a compressed payload of 16 bytes is already 16-byte
aligned, so the smallest multiple of 16 at least its length is 16 itself,
yet the uploader's padding produces 32 bytes — the claim's "smallest
multiple of 16 greater than or equal to the compressed length" fails. -/
theorem c8_counterexample :
    (padTo16 (List.replicate 16 0)).length = 32 ∧
    (16 : Nat) % 16 = 0 ∧
    (List.replicate 16 (0 : Byte)).length ≤ 16 ∧
    (padTo16 (List.replicate 16 0)).length ≠ 16 := by
  refine ⟨by decide, by decide, by decide, by decide⟩

/-- C8 amended: the uploader pads the compressed payload with between 1 and
16 zero bytes, making the padded length the smallest multiple of 16 strictly
greater than the compressed length (a payload already 16-aligned gains one
full extra block); the payload itself is unchanged as a prefix, the
appended bytes are zeros, and the first chunk the uploader writes is the
SHA-1 digest of exactly these compressed-and-padded bytes. -/
theorem c8_padding_and_digest (b : Bytes) (P : Primitives) (key : Bytes)
    (es : List TarEntry) :
    (padTo16 b).length = 16 * (b.length / 16 + 1) ∧
    b.length < (padTo16 b).length ∧
    (∀ m, m % 16 = 0 → b.length < m → (padTo16 b).length ≤ m) ∧
    (padTo16 b).take b.length = b ∧
    (padTo16 b).drop b.length = List.replicate (16 - b.length % 16) 0 ∧
    (sendChunks P key es).head? = some (P.sha1 (sendPayload P es)) := by
  have hlen : (padTo16 b).length = b.length + (16 - b.length % 16) := by
    rw [padTo16, List.length_append, List.length_replicate]
  refine ⟨?_, ?_, ?_, ?_, ?_, rfl⟩
  · rw [hlen]
    omega
  · rw [hlen]
    omega
  · intro m hm hlt
    rw [hlen]
    omega
  · rw [padTo16]
    exact List.take_left b _
  · rw [padTo16]
    exact List.drop_left b _

/-- Witness for C8's amended statement at a 5-byte payload. -/
theorem c8_witness :
    (padTo16 (List.replicate 5 7)).length =
      16 * ((List.replicate 5 (7 : Byte)).length / 16 + 1) :=
  (c8_padding_and_digest (List.replicate 5 7) primsOk [] []).1

/-- C4 counterexample: the normalization loop strips only leading "./"
pairs, so the stored name "./a/./b.txt" normalizes to "a/./b.txt" — the
interior "./" survives — and extracting that entry into an empty filesystem
creates no entry at path "a/b.txt" under the extraction root. -/
theorem c4_counterexample :
    stripDS "./a/./b.txt".data = "a/./b.txt".data ∧
    "a/./b.txt".data ≠ "a/b.txt".data ∧
    FS.lookup (expandEntry nfwSlash [] ⟨"./a/./b.txt".data, .fileT, [1]⟩)
      "new_firmware/a/b.txt".data = none := by
  refine ⟨by decide, by decide, by decide⟩

/-- C4 amended: decoding an archive entry whose stored name is "./a/./b.txt"
writes the file at the path "a/./b.txt" relative to the extraction root:
only leading "./" occurrences are stripped and the interior "./" component
survives in the path the code uses (the operating system resolves
"a/./b.txt" to the same location as "a/b.txt", but the code does not
normalize it away). -/
theorem c4_leading_dot_slash_only (fs : FS) (c : Bytes)
    (h : FS.lookup fs "new_firmware/a/./b.txt".data = none) :
    FS.lookup (expandEntry nfwSlash fs ⟨"./a/./b.txt".data, .fileT, c⟩)
      "new_firmware/a/./b.txt".data = some (.file c) ∧
    stripDS "./a/./b.txt".data = "a/./b.txt".data := by
  constructor
  · unfold expandEntry
    have hpax : isPax "./a/./b.txt".data = false := by decide
    rw [if_neg (by simp [hpax])]
    show FS.lookup (FS.writeFile fs (nfwSlash ++ stripDS "./a/./b.txt".data) c) _ = _
    rw [show nfwSlash ++ stripDS "./a/./b.txt".data = "new_firmware/a/./b.txt".data
      from by decide]
    exact FS.lookup_writeFile_none fs c h
  · decide

/-- Witness for C4's amended statement: extraction into an empty filesystem. -/
theorem c4_witness :
    FS.lookup (expandEntry nfwSlash [] ⟨"./a/./b.txt".data, .fileT, [1]⟩)
      "new_firmware/a/./b.txt".data = some (.file [1]) :=
  (c4_leading_dot_slash_only [] [1] rfl).1

/-- C3 counterexample: starting from an empty filesystem, a payload that
passes the digest check but whose decompression fails leaves the staging
root directory created — a filesystem mutation, contradicting "no directory
created". -/
theorem c3_counterexample :
    (workflow primsFail [] [List.replicate 20 0, []] []).fs = [(nfwP, Node.dir)] ∧
    [(nfwP, Node.dir)] ≠ ([] : FS) := by
  refine ⟨by decide, by decide⟩

/-- C3 amended: when the decrypted payload passes the digest check but
decompression or container parsing fails, the workflow aborts with no swap
attempted and the live firmware tree untouched at its root and below;
however filesystem mutation is not ruled out: the staging root directory is
created before decoding begins, and any entries decoded before the failure
point have already been extracted into the staging tree. -/
theorem c3_decode_failure (P : Primitives) (key first received : Bytes)
    (rest : List Bytes) (es : List TarEntry) (fs : FS)
    (h20 : first.length = 20)
    (hacc : accumulate rest = some received)
    (hok : P.sha1 (P.aesDec key received) = first)
    (hparse : P.parseArchive (P.aesDec key received) = (es, false)) :
    (workflow P key (first :: rest) fs).outcome = .expandFailed ∧
    (workflow P key (first :: rest) fs).fs =
      es.foldl (expandEntry nfwSlash) (FS.mkdir fs nfwP) ∧
    FS.lookup (workflow P key (first :: rest) fs).fs fwP = FS.lookup fs fwP ∧
    (∀ q, FS.lookup (workflow P key (first :: rest) fs).fs (fwSlash ++ q) =
      FS.lookup fs (fwSlash ++ q)) := by
  have hw := workflow_expandFailed P key first received rest es fs h20 hacc hok hparse
  rw [hw]
  refine ⟨rfl, rfl, ?_, ?_⟩
  · rw [lookup_fold_ne nfwSlash es _ (fun e he => nfw_under_ne_fwP (stripDS e.name))]
    exact FS.lookup_mkdir_ne fs (Ne.symm fwP_ne_nfwP)
  · intro q
    rw [lookup_fold_ne nfwSlash es _
      (fun e he => (fw_under_ne_nfw_under q (stripDS e.name)).symm)]
    exact FS.lookup_mkdir_ne fs (fw_under_ne_nfwP q).symm

/-- Witness for C3's amended statement: the failing-decompression session
ends with outcome expandFailed and an untouched live tree. -/
theorem c3_witness :
    (workflow primsFail [] [List.replicate 20 0, []] []).outcome = .expandFailed ∧
    FS.lookup (workflow primsFail [] [List.replicate 20 0, []] []).fs fwP =
      FS.lookup [] fwP := by
  have h := c3_decode_failure primsFail [] (List.replicate 20 0) [] [[]] [] []
    (by decide) rfl (by decide) rfl
  exact ⟨h.1, h.2.2.1⟩

/-- C6: on a successful workflow, the result is exactly a delete of the live
firmware tree (rmtree, total on the model, so absence is non-fatal) followed
by a rename of the staging tree onto the live path: afterwards the live root
node and every live descendant equal the staged root node and staged
descendants, and no entry remains at the staging root or anywhere under it. -/
theorem c6_swap_replaces_live (P : Primitives) (key first received : Bytes)
    (rest : List Bytes) (es : List TarEntry) (fs staged : FS)
    (h20 : first.length = 20)
    (hacc : accumulate rest = some received)
    (hok : P.sha1 (P.aesDec key received) = first)
    (hparse : P.parseArchive (P.aesDec key received) = (es, true))
    (hstaged : staged = es.foldl (expandEntry nfwSlash) (FS.mkdir fs nfwP)) :
    workflow P key (first :: rest) fs =
      ⟨FS.rename (FS.rmtree staged fwP) nfwP fwP, .swapped, []⟩ ∧
    FS.lookup (workflow P key (first :: rest) fs).fs fwP = FS.lookup staged nfwP ∧
    (∀ q, FS.lookup (workflow P key (first :: rest) fs).fs (fwSlash ++ q) =
      FS.lookup staged (nfwSlash ++ q)) ∧
    FS.lookup (workflow P key (first :: rest) fs).fs nfwP = none ∧
    (∀ q, FS.lookup (workflow P key (first :: rest) fs).fs (nfwSlash ++ q) = none) := by
  have hw := workflow_success P key first received rest es fs h20 hacc hok hparse
  rw [← hstaged] at hw
  rw [hw]
  refine ⟨rfl, ?_, ?_, ?_, ?_⟩
  · rw [FS.lookup_rename_root _ (FS.lookup_rmtree_fw_root staged),
      FS.lookup_rmtree_nfw_root]
  · intro q
    rw [FS.lookup_rename_under _ q (FS.lookup_rmtree_fw_under staged q),
      FS.lookup_rmtree_nfw_under]
  · exact FS.lookup_rename_gone_root _
  · intro q
    exact FS.lookup_rename_gone_under _ q

/-- Witness for C6: after a concrete successful workflow the staging path no
longer exists. -/
theorem c6_witness :
    FS.lookup (workflow primsOk [] [List.replicate 20 0, []] sampleFs).fs nfwP =
      none :=
  (c6_swap_replaces_live primsOk [] (List.replicate 20 0) [] [[]]
    (encodeEntries T0) sampleFs
    ((encodeEntries T0).foldl (expandEntry nfwSlash) (FS.mkdir sampleFs nfwP))
    (by decide) rfl (by decide) rfl rfl).2.2.2.1

/-- C10: archive decode never clears a pre-existing staging tree.  A file
already present under the staging root whose path no non-pax regular-file
entry of the archive normalizes to survives extraction in place, and the
subsequent successful swap promotes it into the live firmware tree. -/
theorem c10_stale_staging_promoted (P : Primitives) (key first received : Bytes)
    (rest : List Bytes) (es : List TarEntry) (fs : FS) (p : FPath) (c : Bytes)
    (h20 : first.length = 20)
    (hacc : accumulate rest = some received)
    (hok : P.sha1 (P.aesDec key received) = first)
    (hparse : P.parseArchive (P.aesDec key received) = (es, true))
    (hpre : FS.lookup fs (nfwSlash ++ p) = some (.file c))
    (hnotov : ∀ e ∈ es, isPax e.name = false → e.type = .fileT →
      stripDS e.name ≠ p) :
    FS.lookup (es.foldl (expandEntry nfwSlash) (FS.mkdir fs nfwP)) (nfwSlash ++ p) =
      some (.file c) ∧
    FS.lookup (workflow P key (first :: rest) fs).fs (fwSlash ++ p) =
      some (.file c) := by
  have hstag : FS.lookup (es.foldl (expandEntry nfwSlash) (FS.mkdir fs nfwP))
      (nfwSlash ++ p) = some (.file c) := by
    apply lookup_fold_keepFile
    · rw [FS.lookup_mkdir_ne fs (nfwP_ne_nfw_under p)]
      exact hpre
    · intro e he hp ht hkey
      exact hnotov e he hp ht (List.append_cancel_left hkey)
  refine ⟨hstag, ?_⟩
  have hw := workflow_success P key first received rest es fs h20 hacc hok hparse
  rw [hw]
  show FS.lookup (FS.rename (FS.rmtree _ fwP) nfwP fwP) (fwSlash ++ p) = _
  rw [FS.lookup_rename_under _ p (FS.lookup_rmtree_fw_under _ p),
    FS.lookup_rmtree_nfw_under]
  exact hstag

/-- Witness for C10: a stale file new_firmware/old.txt survives extraction of
an archive holding only a.txt and ends up at firmware/old.txt after the swap. -/
theorem c10_witness :
    FS.lookup (workflow primsA [] [List.replicate 20 0, []] staleFs).fs
      (fwSlash ++ "old.txt".data) = some (.file [5]) :=
  (c10_stale_staging_promoted primsA [] (List.replicate 20 0) [] [[]]
    [⟨"a.txt".data, .fileT, [7]⟩] staleFs "old.txt".data [5]
    (by decide) rfl (by decide) rfl (by decide) (by decide)).2

/-- C9 counterexample: with a live version file present and two connections
served during one run of the advertising supervisor, the version
characteristic is written exactly once — before the loop — not once per
advertising cycle as the claim states. -/
theorem c9_counterexample :
    (advertise primsOk [] sampleFs [[], []]).versionWrites.length = 1 ∧
    ([[], []] : List (List Bytes)).length = 2 ∧
    (advertise primsOk [] sampleFs [[], []]).versionWrites.length ≠
      ([[], []] : List (List Bytes)).length := by
  refine ⟨by decide, by decide, by decide⟩

/-- C9 amended: the version characteristic exposes up to 20 bytes read from
the version marker file of the live tree, but the value is set once, when
the advertising supervisor starts and before the advertising loop is
entered; it is not refreshed per cycle — the writes performed are the same
whatever sessions are served.  (A firmware swap is still reflected, but only
because a successful workflow soft-resets the device, which restarts the
supervisor and re-reads the file.) -/
theorem c9_version_set_once (P : Primitives) (key : Bytes) (fs : FS)
    (sessions : List (List Bytes)) (c : Bytes)
    (h : FS.lookup fs fwVersionP = some (.file c)) :
    (advertise P key fs sessions).versionWrites = [c.take 20] ∧
    (c.take 20).length ≤ 20 ∧
    (advertise P key fs sessions).versionWrites =
      (advertise P key fs []).versionWrites := by
  have hv : versionRead fs = some (c.take 20) := by
    unfold versionRead
    rw [h]
  refine ⟨?_, ?_, rfl⟩
  · show (versionRead fs).toList = [c.take 20]
    rw [hv]
    rfl
  · rw [List.length_take]
    exact Nat.min_le_left 20 _

/-- Witness for C9's amended statement on the sample filesystem, with two
sessions served. -/
theorem c9_witness :
    (advertise primsOk [] sampleFs [[], []]).versionWrites =
      [([49, 46, 48] : Bytes).take 20] :=
  (c9_version_set_once primsOk [] sampleFs [[], []] [49, 46, 48] (by decide)).1

theorem encItem_name (it : FPath × Option Bytes) :
    (encItem it).name = "./".data ++ it.1 := by
  obtain ⟨p, v⟩ := it
  cases v <;> rfl

theorem stripDS_dot_slash (p : FPath) (h : stripDS p = p) :
    stripDS ("./".data ++ p) = p := by
  rw [show "./".data ++ p = '.' :: '/' :: p from rfl]
  show stripDS p = p
  exact h

theorem enc_no_write {Ts : List (FPath × Option Bytes)} {p : FPath}
    (hwfall : ∀ it ∈ Ts, wfItem it.1)
    (hnot : p ∉ Ts.map Prod.fst) :
    ∀ e ∈ Ts.map encItem, nfwSlash ++ stripDS e.name ≠ nfwSlash ++ p := by
  intro e he hkey
  obtain ⟨it, hit, rfl⟩ := List.mem_map.mp he
  rw [encItem_name, stripDS_dot_slash it.1 (hwfall it hit).1] at hkey
  have heq := List.append_cancel_left hkey
  exact hnot (heq ▸ List.mem_map_of_mem Prod.fst hit)

theorem dot_no_write {p : FPath} (hne : p ≠ ".".data) :
    nfwSlash ++ stripDS ".".data ≠ nfwSlash ++ p := by
  rw [show stripDS ".".data = ".".data from rfl]
  intro h
  exact hne (List.append_cancel_left h).symm

theorem c1_staged_file (T : List (FPath × Option Bytes)) (fs : FS) (p : FPath)
    (c : Bytes)
    (hwf : wfTree T)
    (hclean : ∀ q, FS.lookup fs (nfwSlash ++ q) = none)
    (hmem : (p, some c) ∈ T) :
    FS.lookup ((encodeEntries T).foldl (expandEntry nfwSlash) (FS.mkdir fs nfwP))
      (nfwSlash ++ p) = some (.file c) := by
  obtain ⟨T₁, T₂, rfl⟩ := List.append_of_mem hmem
  obtain ⟨hstrip, hne_nil, hne_dot, hpax⟩ := hwf.2 (p, some c)
    (List.mem_append_right T₁ (List.mem_cons_self _ _))
  have hnd := hwf.1
  rw [List.map_append, List.map_cons, List.nodup_append] at hnd
  obtain ⟨hnd1, hnd2, hdisj⟩ := hnd
  have hp1 : p ∉ T₁.map Prod.fst := fun hin => hdisj hin (List.mem_cons_self _ _)
  have hp2 : p ∉ T₂.map Prod.fst := (List.nodup_cons.mp hnd2).1
  have hentries : encodeEntries (T₁ ++ (p, some c) :: T₂) =
      (⟨".".data, .dirT, []⟩ :: T₁.map encItem) ++
        ⟨"./".data ++ p, .fileT, c⟩ :: T₂.map encItem := by
    simp [encodeEntries, encItem, List.map_append]
  rw [hentries]
  refine lookup_fold_writeFile nfwSlash _ _ ("./".data ++ p) c _ ?_ ?_ ?_ ?_ ?_
  · rw [stripDS_dot_slash p hstrip]
  · exact hpax
  · intro e he
    rcases List.mem_cons.mp he with rfl | he'
    · exact dot_no_write hne_dot
    · exact enc_no_write (fun it h => hwf.2 it (List.mem_append_left _ h)) hp1 e he'
  · exact enc_no_write
      (fun it h => hwf.2 it (List.mem_append_right _ (List.mem_cons_of_mem _ h))) hp2
  · rw [FS.lookup_mkdir_ne fs (nfwP_ne_nfw_under p)]
    exact hclean p

theorem c1_staged_dir (T : List (FPath × Option Bytes)) (fs : FS) (p : FPath)
    (hwf : wfTree T)
    (hclean : ∀ q, FS.lookup fs (nfwSlash ++ q) = none)
    (hmem : (p, none) ∈ T) :
    FS.lookup ((encodeEntries T).foldl (expandEntry nfwSlash) (FS.mkdir fs nfwP))
      (nfwSlash ++ p) = some .dir := by
  obtain ⟨T₁, T₂, rfl⟩ := List.append_of_mem hmem
  obtain ⟨hstrip, hne_nil, hne_dot, hpax⟩ := hwf.2 (p, none)
    (List.mem_append_right T₁ (List.mem_cons_self _ _))
  have hnd := hwf.1
  rw [List.map_append, List.map_cons, List.nodup_append] at hnd
  obtain ⟨hnd1, hnd2, hdisj⟩ := hnd
  have hp1 : p ∉ T₁.map Prod.fst := fun hin => hdisj hin (List.mem_cons_self _ _)
  have hp2 : p ∉ T₂.map Prod.fst := (List.nodup_cons.mp hnd2).1
  have hentries : encodeEntries (T₁ ++ (p, none) :: T₂) =
      (⟨".".data, .dirT, []⟩ :: T₁.map encItem) ++
        ⟨"./".data ++ p, .dirT, []⟩ :: T₂.map encItem := by
    simp [encodeEntries, encItem, List.map_append]
  rw [hentries]
  refine lookup_fold_mkdirEntry nfwSlash _ _ ("./".data ++ p) _ ?_ ?_ ?_ ?_ ?_
  · rw [stripDS_dot_slash p hstrip]
  · exact hpax
  · intro e he
    rcases List.mem_cons.mp he with rfl | he'
    · exact dot_no_write hne_dot
    · exact enc_no_write (fun it h => hwf.2 it (List.mem_append_left _ h)) hp1 e he'
  · exact enc_no_write
      (fun it h => hwf.2 it (List.mem_append_right _ (List.mem_cons_of_mem _ h))) hp2
  · rw [FS.lookup_mkdir_ne fs (nfwP_ne_nfw_under p)]
    exact hclean p

/-- C1: the full pipeline round trip.  For every well-formed directory tree T,
every key, and any library primitives that satisfy their contracts at the
payload the uploader produces (AES-ECB decryption inverts encryption on the
compressed-padded payload, the SHA-1 digest is 20 bytes long, and the
deflate+tar reader recovers exactly the encoded entries from that payload),
running the device workflow on the uploader's write sequence — digest first,
ciphertext in 20-byte chunks, zero-length terminator — passes the digest
check, completes the swap, and the archive-decode step reproduces under the
staging root every file of T byte-for-byte and every directory of T. -/
theorem c1_pipeline_roundtrip (P : Primitives) (key : Bytes)
    (T : List (FPath × Option Bytes)) (fs staged : FS)
    (hwf : wfTree T)
    (hclean : ∀ q, FS.lookup fs (nfwSlash ++ q) = none)
    (hlen : (P.sha1 (sendPayload P (encodeEntries T))).length = 20)
    (hdec : P.aesDec key (P.aesEnc key (sendPayload P (encodeEntries T))) =
      sendPayload P (encodeEntries T))
    (hparse : P.parseArchive (sendPayload P (encodeEntries T)) =
      (encodeEntries T, true))
    (hstaged : staged = (encodeEntries T).foldl (expandEntry nfwSlash)
      (FS.mkdir fs nfwP)) :
    (workflow P key (sendChunks P key (encodeEntries T)) fs).outcome = .swapped ∧
    (∀ p c, (p, some c) ∈ T → FS.lookup staged (nfwSlash ++ p) = some (.file c)) ∧
    (∀ p, (p, none) ∈ T → FS.lookup staged (nfwSlash ++ p) = some .dir) := by
  have hok : P.sha1 (P.aesDec key (P.aesEnc key (sendPayload P (encodeEntries T)))) =
      P.sha1 (sendPayload P (encodeEntries T)) := by
    rw [hdec]
  have hparse2 : P.parseArchive (P.aesDec key (P.aesEnc key
      (sendPayload P (encodeEntries T)))) = (encodeEntries T, true) := by
    rw [hdec]
    exact hparse
  have hw := workflow_success P key (P.sha1 (sendPayload P (encodeEntries T)))
    (P.aesEnc key (sendPayload P (encodeEntries T)))
    (chunk20 (P.aesEnc key (sendPayload P (encodeEntries T))) ++ [[]])
    (encodeEntries T) fs hlen (accumulate_chunk20 _) hok hparse2
  refine ⟨?_, ?_, ?_⟩
  · show (workflow P key (P.sha1 (sendPayload P (encodeEntries T)) ::
      (chunk20 (P.aesEnc key (sendPayload P (encodeEntries T))) ++ [[]]))
      fs).outcome = .swapped
    rw [hw]
  · intro p c hmem
    rw [hstaged]
    exact c1_staged_file T fs p c hwf hclean hmem
  · intro p hmem
    rw [hstaged]
    exact c1_staged_dir T fs p hwf hclean hmem

/-- Witness for C1: the spec's concrete scenario — one file `version` with
content "1.0.0" — staged byte-for-byte by the round trip. -/
theorem c1_witness :
    FS.lookup ((encodeEntries T0).foldl (expandEntry nfwSlash)
      (FS.mkdir ([] : FS) nfwP)) (nfwSlash ++ "version".data) =
      some (.file [49, 46, 48, 46, 48]) :=
  (c1_pipeline_roundtrip primsOk [] T0 []
    ((encodeEntries T0).foldl (expandEntry nfwSlash) (FS.mkdir ([] : FS) nfwP))
    (by decide) (fun q => rfl) (by decide) rfl rfl rfl).2.1
    "version".data [49, 46, 48, 46, 48] (by decide)
